import Mathlib

/-!
Shallow embedding of the slug identifier subsystem of the submerge
repository (src/migrate-release-slugs.js, src/server.js, src/script.js):
the slug normalizer `generateSlug`, the uniqueness resolver
`ensureUniqueSlug`, the identifier resolver backing the
`GET /api/artists/:identifier` route, the referential integrity guard of
`DELETE /api/artists/:id`, the artist/release save paths, and the error
propagation of the store helpers.  Strings are modelled as `List Char`
(JavaScript strings are sequences of code points for every construct used
here).
-/

namespace Submerge

/-- Code points matched by the JavaScript regex class `\s` (also the set
removed by `String.prototype.trim`): tab, LF, VT, FF, CR, space, NBSP,
Ogham space mark, the en-quad..hair-space range, line separator, paragraph
separator, narrow NBSP, medium mathematical space, ideographic space, BOM. -/
def isSpace (c : Char) : Bool :=
  c.toNat = 9 || c.toNat = 10 || c.toNat = 11 || c.toNat = 12 || c.toNat = 13 ||
  c.toNat = 32 || c.toNat = 160 || c.toNat = 5760 ||
  (8192 ≤ c.toNat && c.toNat ≤ 8202) || c.toNat = 8232 || c.toNat = 8233 ||
  c.toNat = 8239 || c.toNat = 8287 || c.toNat = 12288 || c.toNat = 65279

/-- Code points matched by the JavaScript regex class `\w`:
ASCII letters, ASCII digits, and the underscore. -/
def isWordChar (c : Char) : Bool :=
  (65 ≤ c.toNat && c.toNat ≤ 90) || (97 ≤ c.toNat && c.toNat ≤ 122) ||
  (48 ≤ c.toNat && c.toNat ≤ 57) || c.toNat = 95

/-- The hyphen-minus character, code point 45. -/
def isHyphen (c : Char) : Bool := c.toNat = 45

/-- Characters surviving `.replace(/[^\w\s-]/g, '')`. -/
def keepChar (c : Char) : Bool := isWordChar c || isSpace c || isHyphen c

/-- Per-code-point lower casing as performed by `String.prototype.toLowerCase`
on the ASCII range (the only characters that survive the later
`[^\w\s-]` strip). -/
def lowerChar (c : Char) : Char :=
  if 65 ≤ c.toNat && c.toNat ≤ 90 then Char.ofNat (c.toNat + 32) else c

/-- `String.prototype.trim`: drop leading and trailing whitespace. -/
def trimChars (l : List Char) : List Char :=
  ((l.dropWhile isSpace).reverse.dropWhile isSpace).reverse

/-- `.replace(/\s+/g, '-')`: each maximal run of whitespace becomes a single
hyphen.  The boolean records whether the previous character was whitespace
(i.e. whether we are inside a run already replaced). -/
def collapseWsAux : Bool → List Char → List Char
  | _, [] => []
  | inRun, c :: rest =>
    if isSpace c then
      if inRun then collapseWsAux true rest
      else '-' :: collapseWsAux true rest
    else c :: collapseWsAux false rest

/-- `.replace(/\s+/g, '-')`. -/
def collapseWs (l : List Char) : List Char := collapseWsAux false l

/-- the hyphen-collapsing replace: each maximal run of hyphens becomes a
single hyphen (regex `-+`, global, replaced by one hyphen). -/
def collapseHyAux : Bool → List Char → List Char
  | _, [] => []
  | inRun, c :: rest =>
    if isHyphen c then
      if inRun then collapseHyAux true rest
      else '-' :: collapseHyAux true rest
    else c :: collapseHyAux false rest

/-- The hyphen-collapsing replace (regex `-+` to one hyphen, global). -/
def collapseHy (l : List Char) : List Char := collapseHyAux false l

/-- Drop one leading hyphen if present (the `^-` alternative of
`.replace(/^-|-$/g, '')`). -/
def dropLeadHy : List Char → List Char
  | [] => []
  | c :: rest => if c = '-' then rest else c :: rest

/-- Drop one trailing hyphen if present (the `-$` alternative of
`.replace(/^-|-$/g, '')`). -/
def dropTrailHy (l : List Char) : List Char := (dropLeadHy l.reverse).reverse

/-- `.replace(/^-|-$/g, '')`: the global regex matches at most one leading
and one trailing hyphen. -/
def stripEndHy (l : List Char) : List Char := dropTrailHy (dropLeadHy l)

/-- `generateSlug` of src/migrate-release-slugs.js (lines 735-744), identical
to `generateSlug` in src/script.js and to `generateReleaseSlug`
(lines 625-634): lower-case, trim, strip characters outside `[\w\s-]`,
collapse whitespace runs to one hyphen, collapse hyphen runs, strip one
leading/trailing hyphen.  `if (!name) return ''` is the empty-list guard. -/
def generateSlug (name : List Char) : List Char :=
  if name = [] then []
  else stripEndHy (collapseHy (collapseWs (List.filter keepChar (trimChars (name.map lowerChar)))))

/-- `generateReleaseSlug` of src/migrate-release-slugs.js (lines 625-634):
textually the same pipeline as `generateSlug`, applied to release titles. -/
def generateReleaseSlug (title : List Char) : List Char := generateSlug title

example : generateSlug "Night Drive, Vol. 2!".data = "night-drive-vol-2".data := by decide
example : generateSlug "a_b".data = "a_b".data := by decide
example : generateSlug "  --Hello  World-- ".data = "hello-world".data := by decide
example : generateSlug "!!!".data = "".data := by decide

/-- The alphabet the generated slugs actually draw from: ASCII lowercase
letters, digits, underscore, hyphen. -/
def outChar (c : Char) : Bool :=
  (97 ≤ c.toNat && c.toNat ≤ 122) || (48 ≤ c.toNat && c.toNat ≤ 57) ||
  c.toNat = 95 || c.toNat = 45

/-- Following the spec's words (not the code): the output alphabet the
spec claims for the normalizer — ASCII lowercase letters, digits, and
hyphens only, with no underscore. -/
def specSlugChar (c : Char) : Bool :=
  (97 ≤ c.toNat && c.toNat ≤ 122) || (48 ≤ c.toNat && c.toNat ≤ 57) || c.toNat = 45

/-- No two adjacent hyphens. -/
def HyChain (l : List Char) : Prop :=
  List.Chain' (fun a b => ¬(a = '-' ∧ b = '-')) l

/-- The shape of a fully normalized slug: slug alphabet only, no hyphen
runs, no leading hyphen, no trailing hyphen. -/
def NormSlug (l : List Char) : Prop :=
  (∀ c ∈ l, outChar c = true) ∧ HyChain l ∧ l.head? ≠ some '-' ∧ l.getLast? ≠ some '-'

/-- A row of the `artists` table, restricted to the columns the slug
subsystem reads or writes. -/
structure Artist where
  id : List Char
  slug : List Char
  name : List Char
deriving DecidableEq, Repr

/-- A row of the `releases` table, restricted to the columns the slug
subsystem and the referential integrity guard read or write. -/
structure Release where
  id : List Char
  slug : List Char
  title : List Char
  artistId : List Char
deriving DecidableEq, Repr

/-- Fuelled computation of the decimal digits of `n`, most significant
first; `fuel ≥ n` makes it total (each division by ten strictly shrinks a
positive argument). -/
def natDecCore : Nat → Nat → List Char
  | 0, _ => []
  | _ + 1, 0 => []
  | fuel + 1, n + 1 => natDecCore fuel ((n + 1) / 10) ++ [Nat.digitChar ((n + 1) % 10)]

/-- Decimal rendering of a natural number, most significant digit first:
the value interpolated for `counter` in the template `slug-counter` of
`ensureUniqueSlug`. -/
def natDec (n : Nat) : List Char :=
  if n = 0 then ['0'] else natDecCore n n

/-- The k-th candidate tried by `ensureUniqueSlug`: the base slug itself
for k = 0, then base-1, base-2, and so on. -/
def candidate (base : List Char) (k : Nat) : List Char :=
  if k = 0 then base else base ++ '-' :: natDec k

/-- The collision query of `ensureUniqueSlug` (lines 747-765):
`SELECT id FROM artists WHERE slug = $1 AND id != $2`, or the variant
without the exclusion when `excludeId` is null. -/
def slugTaken (coll : List Artist) (s : List Char) (excludeId : Option (List Char)) : Bool :=
  coll.any (fun a => decide (a.slug = s) && (match excludeId with
    | some ex => decide (a.id ≠ ex)
    | none => true))

/-- The `while (true)` loop of `ensureUniqueSlug`, with the iteration
count made explicit: at step k the candidate is checked and on collision
the loop moves to step k+1.  The source loop has no bound; the fuel
argument only serves to make the recursion well founded, and
`ensureUniqueSlug` is run with fuel `coll.length + 1`, which the
termination theorem proves sufficient (the result is never `none`). -/
def ensureUniqueSlugAux (coll : List Artist) (base : List Char) (excludeId : Option (List Char)) : Nat → Nat → Option (List Char)
  | 0, _ => none
  | fuel + 1, k =>
    if slugTaken coll (candidate base k) excludeId then
      ensureUniqueSlugAux coll base excludeId fuel (k + 1)
    else some (candidate base k)

/-- `ensureUniqueSlug` of src/migrate-release-slugs.js (lines 747-765). -/
def ensureUniqueSlug (coll : List Artist) (base : List Char) (excludeId : Option (List Char)) : Option (List Char) :=
  ensureUniqueSlugAux coll base excludeId (coll.length + 1) 0

/-- The collision query of `ensureUniqueReleaseSlug` (lines 638-656):
`SELECT id FROM releases WHERE slug = $1 AND id != $2`. -/
def relSlugTaken (coll : List Release) (s : List Char) (excludeId : Option (List Char)) : Bool :=
  coll.any (fun r => decide (r.slug = s) && (match excludeId with
    | some ex => decide (r.id ≠ ex)
    | none => true))

/-- The loop of `ensureUniqueReleaseSlug`, fuelled like `ensureUniqueSlugAux`. -/
def ensureUniqueReleaseSlugAux (coll : List Release) (base : List Char) (excludeId : Option (List Char)) : Nat → Nat → Option (List Char)
  | 0, _ => none
  | fuel + 1, k =>
    if relSlugTaken coll (candidate base k) excludeId then
      ensureUniqueReleaseSlugAux coll base excludeId fuel (k + 1)
    else some (candidate base k)

/-- `ensureUniqueReleaseSlug` of src/migrate-release-slugs.js (lines 638-656). -/
def ensureUniqueReleaseSlug (coll : List Release) (base : List Char) (excludeId : Option (List Char)) : Option (List Char) :=
  ensureUniqueReleaseSlugAux coll base excludeId (coll.length + 1) 0

/-- The lookup of `GET /api/artists/:identifier` (lines 1013-1033): the
slug query `SELECT * FROM artists WHERE slug = $1` runs first; only when
it returns no row is the identifier retried as a primary id with
`SELECT * FROM artists WHERE id = $1`; `rows[0]` takes the first row. -/
def resolveByIdentifier (coll : List Artist) (identifier : List Char) : Option Artist :=
  match coll.find? (fun a => decide (a.slug = identifier)) with
  | some a => some a
  | none => coll.find? (fun a => decide (a.id = identifier))

/-- Outcome of the referential integrity guard. -/
inductive GuardResult where
  | Allow : GuardResult
  | Conflict : GuardResult
deriving DecidableEq, Repr

/-- `SELECT COUNT(*) FROM releases WHERE "artistId" = $1` of
`DELETE /api/artists/:id` (lines 1110-1126). -/
def childCount (releases : List Release) (parentId : List Char) : Nat :=
  (releases.filter (fun r => decide (r.artistId = parentId))).length

/-- The referential integrity guard of `DELETE /api/artists/:id`: conflict
exactly when the child count is positive. -/
def guardDelete (releases : List Release) (parentId : List Char) : GuardResult :=
  if childCount releases parentId > 0 then GuardResult.Conflict else GuardResult.Allow

/-- HTTP outcome of the artist delete route. -/
inductive DeleteResp where
  | conflict : DeleteResp
  | deleted : DeleteResp
  | notFound : DeleteResp
deriving DecidableEq, Repr

/-- `deleteArtist` helper (migrate backend): `DELETE FROM artists WHERE
id = $1`, reporting whether any row was removed, and the rows left. -/
def deleteArtist (artists : List Artist) (id : List Char) : Bool × List Artist :=
  (artists.any (fun a => decide (a.id = id)), artists.filter (fun a => decide (a.id ≠ id)))

/-- The `DELETE /api/artists/:id` route (lines 1110-1126): guard first —
on conflict respond 400 and leave the table untouched — otherwise delete,
responding 404 when no row matched. -/
def deleteArtistRoute (artists : List Artist) (releases : List Release) (id : List Char) : DeleteResp × List Artist :=
  if childCount releases id > 0 then (DeleteResp.conflict, artists)
  else if (deleteArtist artists id).fst then (DeleteResp.deleted, (deleteArtist artists id).snd)
  else (DeleteResp.notFound, artists)

/-- The SQL upsert `INSERT ... ON CONFLICT (id) DO UPDATE` of `saveArtist`:
replace the row whose primary key matches, or append a new row. -/
def upsertArtist (coll : List Artist) (a : Artist) : List Artist :=
  if coll.any (fun e => decide (e.id = a.id)) then
    coll.map (fun e => if e.id = a.id then a else e)
  else coll ++ [a]

/-- `saveArtist` of src/migrate-release-slugs.js (lines 767-773 and on):
`let slug = artist.slug || generateSlug(artist.name);` then
`if (slug) slug = await ensureUniqueSlug(slug, artist.id);` then the
upsert.  A missing slug is modelled as the empty list (both `null` and
the empty string are falsy for `||` and `if`).  `none` can only arise
from resolver fuel exhaustion, which the termination theorem rules out. -/
def saveArtist (coll : List Artist) (a : Artist) : Option (List Artist) :=
  let base := if a.slug = [] then generateSlug a.name else a.slug
  match (if base = [] then some base else ensureUniqueSlug coll base (some a.id)) with
  | none => none
  | some s => some (upsertArtist coll { a with slug := s })

/-- A sequence of resolver-backed writes through `saveArtist`. -/
def saveAll (coll : List Artist) : List Artist → Option (List Artist)
  | [] => some coll
  | a :: rest =>
    match saveArtist coll a with
    | none => none
    | some coll2 => saveAll coll2 rest

/-- The collection invariant of the spec: within one collection, no two
entities share a non-empty slug (two owners of one slug must be the same
row, identified by primary key). -/
def SlugUnique (coll : List Artist) : Prop :=
  ∀ a ∈ coll, ∀ b ∈ coll, a.slug ≠ [] → a.slug = b.slug → a.id = b.id

/-- Primary-key discipline of the store: the id column is unique. -/
def IdsNodup (coll : List Artist) : Prop :=
  coll.Pairwise (fun a b => a.id ≠ b.id)

/-- The slug actually stored by `saveRelease` (lines 658-664):
`let slug = release.slug || generateReleaseSlug(release.title);` and the
resolver is invoked only under `if (slug)`. -/
def saveReleaseSlug (coll : List Release) (r : Release) : Option (List Char) :=
  let base := if r.slug = [] then generateReleaseSlug r.title else r.slug
  if base = [] then some base else ensureUniqueReleaseSlug coll base (some r.id)

/-- The field-update block of `PUT /api/artists/:id` (lines 1086-1099):
`artist.name = req.body.name || artist.name;` and later
`if (req.body.name && req.body.name !== artist.name) artist.slug = null;`
— the request name is compared against the field that was already
overwritten with it. -/
def updateArtistFields (a : Artist) (bodyName : List Char) : Artist :=
  let a1 := { a with name := if bodyName = [] then a.name else bodyName }
  if bodyName ≠ [] ∧ bodyName ≠ a1.name then { a1 with slug := [] } else a1

namespace Store

/-- `getReleases` of src/server.js (lines 88-96) and of
src/migrate-release-slugs.js (lines 615-623): the store read is wrapped
in try/catch and a failure is logged and replaced by the empty list. -/
def getReleases (q : Except (List Char) (List Release)) : Except (List Char) (List Release) :=
  match q with
  | Except.ok rows => Except.ok rows
  | Except.error _ => Except.ok []

/-- `getArtists` of src/migrate-release-slugs.js (lines 722-730): same
catch-and-default shape as `getReleases`. -/
def getArtists (q : Except (List Char) (List Artist)) : Except (List Char) (List Artist) :=
  match q with
  | Except.ok rows => Except.ok rows
  | Except.error _ => Except.ok []

/-- `deleteRelease` of src/migrate-release-slugs.js: try/catch that logs
and rethrows, turning a row count into a boolean on success. -/
def deleteRelease (q : Except (List Char) Nat) : Except (List Char) Bool :=
  match q with
  | Except.ok rowCount => Except.ok (decide (rowCount > 0))
  | Except.error e => Except.error e

/-- The write path of `saveArtist`: try/catch that logs and rethrows the
store error unchanged. -/
def saveArtist (q : Except (List Char) Artist) : Except (List Char) Artist :=
  match q with
  | Except.ok a => Except.ok a
  | Except.error e => Except.error e

end Store

/-! ## Helper lemmas -/

/-- The collision query with an exclusion reports no collision exactly when
every owner of the slug is the excluded entity. -/
theorem slugTaken_false_iff (coll : List Artist) (s : List Char) (ex : List Char) :
    slugTaken coll s (some ex) = false ↔ ∀ a ∈ coll, a.slug = s → a.id = ex := by
  rw [Bool.eq_false_iff]
  unfold slugTaken
  rw [Ne, List.any_eq_true]
  simp only [Bool.and_eq_true, decide_eq_true_eq, not_exists]
  constructor
  · intro h a ha hs
    by_contra hne
    exact h a ⟨ha, hs, hne⟩
  · rintro h a ⟨ha, hs, hne⟩
    exact hne (h a ha hs)

/-- Whatever the resolver loop returns is collision-free at query time. -/
theorem ensureUniqueSlugAux_not_taken (coll : List Artist) (base : List Char)
    (ex : Option (List Char)) (fuel k : Nat) (s : List Char)
    (h : ensureUniqueSlugAux coll base ex fuel k = some s) :
    slugTaken coll s ex = false := by
  induction fuel generalizing k with
  | zero => simp [ensureUniqueSlugAux] at h
  | succ n ih =>
    rw [ensureUniqueSlugAux] at h
    by_cases ht : slugTaken coll (candidate base k) ex = true
    · rw [if_pos ht] at h
      exact ih _ h
    · rw [if_neg ht] at h
      cases h
      exact Bool.eq_false_iff.mpr ht

/-- When the base slug itself is collision-free the loop returns it on its
first iteration. -/
theorem ensureUniqueSlug_base_free (coll : List Artist) (base : List Char)
    (ex : Option (List Char)) (h : slugTaken coll base ex = false) :
    ensureUniqueSlug coll base ex = some base := by
  unfold ensureUniqueSlug
  rw [ensureUniqueSlugAux]
  have hc : candidate base 0 = base := by simp [candidate]
  rw [hc, h]
  simp

/-- `Char.ofNat` inverts `toNat` on the basic multilingual plane. -/
theorem toNat_ofNat_small (m : Nat) (h1 : m < 55296) : (Char.ofNat m).toNat = m := by
  unfold Char.ofNat
  rw [dif_pos (Or.inl h1)]
  rfl

/-- The hyphen test in terms of the character itself. -/
theorem isHyphen_iff (c : Char) : isHyphen c = true ↔ c = '-' := by
  unfold isHyphen
  constructor
  · intro h
    have h2 : c.toNat = 45 := by simpa using h
    have h3 := Char.ofNat_toNat c
    rw [h2] at h3
    rw [← h3]
  · rintro rfl
    decide

/-- Lower-casing never yields an ASCII uppercase letter. -/
theorem lowerChar_not_upper (c : Char) :
    ¬(65 ≤ (lowerChar c).toNat ∧ (lowerChar c).toNat ≤ 90) := by
  unfold lowerChar
  by_cases h : (65 ≤ c.toNat && c.toNat ≤ 90) = true
  · rw [if_pos h]
    simp only [Bool.and_eq_true, decide_eq_true_eq] at h
    rw [toNat_ofNat_small (c.toNat + 32) (by omega)]
    omega
  · rw [if_neg h]
    intro hc
    exact h (by simp only [Bool.and_eq_true, decide_eq_true_eq]; exact hc)

/-- Surviving characters of the strip that are neither whitespace nor
uppercase lie in the slug alphabet. -/
theorem outChar_of_keep (c : Char) (hk : keepChar c = true)
    (hup : ¬(65 ≤ c.toNat ∧ c.toNat ≤ 90)) (hsp : isSpace c = false) : outChar c = true := by
  rw [Bool.eq_false_iff] at hsp
  unfold keepChar isWordChar isHyphen at hk
  unfold isSpace at hk hsp
  unfold outChar
  simp only [ne_eq, Bool.or_eq_true, Bool.and_eq_true, decide_eq_true_eq] at hk hsp ⊢
  omega

/-- Membership through the trim. -/
theorem mem_of_mem_trimChars (c : Char) (l : List Char) (h : c ∈ trimChars l) : c ∈ l := by
  unfold trimChars at h
  rw [List.mem_reverse] at h
  have h2 : c ∈ (l.dropWhile isSpace).reverse := List.Sublist.mem h (List.dropWhile_sublist _)
  rw [List.mem_reverse] at h2
  exact List.Sublist.mem h2 (List.dropWhile_sublist _)

/-- Characters of the whitespace-collapse output: hyphens plus the
non-whitespace input characters. -/
theorem collapseWsAux_all (P : Char → Prop) (hP : P '-') :
    ∀ (l : List Char) (b : Bool), (∀ c ∈ l, isSpace c = false → P c) →
      ∀ c ∈ collapseWsAux b l, P c := by
  intro l
  induction l with
  | nil =>
    intro b _ c hc
    simp [collapseWsAux] at hc
  | cons d rest ih =>
    intro b hl c hc
    have hrest : ∀ c2 ∈ rest, isSpace c2 = false → P c2 :=
      fun c2 hc2 hs => hl c2 (List.mem_cons_of_mem d hc2) hs
    rw [collapseWsAux] at hc
    by_cases hd : isSpace d = true
    · rw [if_pos hd] at hc
      cases b with
      | false =>
        rw [if_neg (by simp)] at hc
        rcases List.mem_cons.mp hc with rfl | hc2
        · exact hP
        · exact ih true hrest c hc2
      | true =>
        rw [if_pos rfl] at hc
        exact ih true hrest c hc
    · rw [if_neg hd] at hc
      rcases List.mem_cons.mp hc with rfl | hc2
      · exact hl c (List.mem_cons_self c rest) (Bool.eq_false_iff.mpr hd)
      · exact ih false hrest c hc2

/-- Characters of the hyphen-collapse output: hyphens plus the
non-hyphen input characters. -/
theorem collapseHyAux_all (P : Char → Prop) (hP : P '-') :
    ∀ (l : List Char) (b : Bool), (∀ c ∈ l, isHyphen c = false → P c) →
      ∀ c ∈ collapseHyAux b l, P c := by
  intro l
  induction l with
  | nil =>
    intro b _ c hc
    simp [collapseHyAux] at hc
  | cons d rest ih =>
    intro b hl c hc
    have hrest : ∀ c2 ∈ rest, isHyphen c2 = false → P c2 :=
      fun c2 hc2 hs => hl c2 (List.mem_cons_of_mem d hc2) hs
    rw [collapseHyAux] at hc
    by_cases hd : isHyphen d = true
    · rw [if_pos hd] at hc
      cases b with
      | false =>
        rw [if_neg (by simp)] at hc
        rcases List.mem_cons.mp hc with rfl | hc2
        · exact hP
        · exact ih true hrest c hc2
      | true =>
        rw [if_pos rfl] at hc
        exact ih true hrest c hc
    · rw [if_neg hd] at hc
      rcases List.mem_cons.mp hc with rfl | hc2
      · exact hl c (List.mem_cons_self c rest) (Bool.eq_false_iff.mpr hd)
      · exact ih false hrest c hc2

/-- The hyphen collapse leaves no hyphen runs, and emits no leading hyphen
while already inside a run. -/
theorem collapseHyAux_chain :
    ∀ (l : List Char) (b : Bool),
      HyChain (collapseHyAux b l) ∧
      (b = true → (collapseHyAux b l).head? ≠ some '-') := by
  intro l
  induction l with
  | nil =>
    intro b
    refine ⟨by simp [collapseHyAux, HyChain], fun _ => by simp [collapseHyAux]⟩
  | cons d rest ih =>
    intro b
    rw [collapseHyAux]
    by_cases hd : isHyphen d = true
    · rw [if_pos hd]
      have hd2 : d = '-' := (isHyphen_iff d).mp hd
      cases b with
      | true =>
        rw [if_pos rfl]
        exact ih true
      | false =>
        rw [if_neg (by simp)]
        constructor
        · unfold HyChain
          rw [List.chain'_cons']
          refine ⟨?_, (ih true).1⟩
          intro y hy hcon
          exact (ih true).2 rfl (by rw [Option.mem_def.mp hy, hcon.2])
        · intro hb
          exact absurd hb (by simp)
    · rw [if_neg hd]
      have hd2 : d ≠ '-' := fun he => hd ((isHyphen_iff d).mpr he)
      constructor
      · unfold HyChain
        rw [List.chain'_cons']
        refine ⟨?_, (ih false).1⟩
        intro y _ hcon
        exact hd2 hcon.1
      · intro _
        simp only [List.head?_cons]
        intro he
        exact hd2 (Option.some.inj he)

/-- `dropLeadHy` returns the list or its tail. -/
theorem dropLeadHy_cases (l : List Char) : dropLeadHy l = l ∨ dropLeadHy l = l.tail := by
  cases l with
  | nil => exact Or.inl rfl
  | cons c t =>
    simp only [dropLeadHy]
    by_cases hc : c = '-'
    · rw [if_pos hc]
      exact Or.inr rfl
    · rw [if_neg hc]
      exact Or.inl rfl

/-- Membership through `dropLeadHy`. -/
theorem mem_of_mem_dropLeadHy (c : Char) (l : List Char) (h : c ∈ dropLeadHy l) : c ∈ l := by
  rcases dropLeadHy_cases l with he | he <;> rw [he] at h
  · exact h
  · exact List.mem_of_mem_tail h

/-- `dropLeadHy` keeps the no-hyphen-run property. -/
theorem hyChain_dropLeadHy (l : List Char) (h : HyChain l) : HyChain (dropLeadHy l) := by
  rcases dropLeadHy_cases l with he | he <;> rw [he]
  · exact h
  · exact h.tail

/-- After dropping one leading hyphen of a run-free list the head is not a
hyphen. -/
theorem head_dropLeadHy (l : List Char) (h : HyChain l) : (dropLeadHy l).head? ≠ some '-' := by
  cases l with
  | nil => simp [dropLeadHy]
  | cons c t =>
    simp only [dropLeadHy]
    by_cases hc : c = '-'
    · rw [if_pos hc]
      subst hc
      unfold HyChain at h
      rw [List.chain'_cons'] at h
      intro hcon
      exact h.1 '-' (Option.mem_def.mpr hcon) ⟨rfl, rfl⟩
    · rw [if_neg hc]
      simp only [List.head?_cons]
      intro he
      exact hc (Option.some.inj he)

/-- `HyChain` is preserved by reversal. -/
theorem hyChain_reverse (l : List Char) (h : HyChain l) : HyChain l.reverse := by
  unfold HyChain at *
  rw [List.chain'_reverse]
  exact h.imp (fun a b hab hcon => hab ⟨hcon.2, hcon.1⟩)

/-- The tail keeps the last element or empties the list. -/
theorem getLast?_tail_or (l : List Char) : l.tail.getLast? = l.getLast? ∨ l.tail = [] := by
  cases l with
  | nil => exact Or.inr rfl
  | cons a t =>
    cases t with
    | nil => exact Or.inr rfl
    | cons b t2 =>
      left
      rw [List.getLast?_cons_cons]
      rfl

/-- The edge strip of a run-free list over the slug alphabet yields a
fully normalized slug. -/
theorem stripEndHy_norm (l : List Char) (hall : ∀ c ∈ l, outChar c = true)
    (hch : HyChain l) : NormSlug (stripEndHy l) := by
  unfold stripEndHy dropTrailHy
  have hall1 : ∀ c ∈ dropLeadHy l, outChar c = true :=
    fun c hc => hall c (mem_of_mem_dropLeadHy c l hc)
  have hch1 : HyChain (dropLeadHy l) := hyChain_dropLeadHy l hch
  have hhead1 : (dropLeadHy l).head? ≠ some '-' := head_dropLeadHy l hch
  have hch1r : HyChain (dropLeadHy l).reverse := hyChain_reverse _ hch1
  refine ⟨?_, ?_, ?_, ?_⟩
  · intro c hc
    rw [List.mem_reverse] at hc
    exact hall1 c (List.mem_reverse.mp (mem_of_mem_dropLeadHy c _ hc))
  · exact hyChain_reverse _ (hyChain_dropLeadHy _ hch1r)
  · rw [List.head?_reverse]
    rcases dropLeadHy_cases (dropLeadHy l).reverse with he | he <;> rw [he]
    · rw [List.getLast?_reverse]
      exact hhead1
    · rcases getLast?_tail_or (dropLeadHy l).reverse with hg | hg
      · rw [hg, List.getLast?_reverse]
        exact hhead1
      · rw [hg]
        simp
  · rw [List.getLast?_reverse]
    exact head_dropLeadHy _ hch1r

/-- The output of the normalizer is fully normalized. -/
theorem generateSlug_norm (s : List Char) : NormSlug (generateSlug s) := by
  unfold generateSlug
  by_cases hs : s = []
  · rw [if_pos hs]
    exact ⟨by simp, by simp [HyChain], by simp, by simp⟩
  · rw [if_neg hs]
    have hpre : ∀ c ∈ List.filter keepChar (trimChars (s.map lowerChar)),
        isSpace c = false → outChar c = true := by
      intro c hc hsp
      have hk := List.of_mem_filter hc
      have hmem2 := mem_of_mem_trimChars c _ (List.mem_of_mem_filter hc)
      obtain ⟨d, _, rfl⟩ := List.mem_map.mp hmem2
      exact outChar_of_keep _ hk (lowerChar_not_upper d) hsp
    have hws : ∀ c ∈ collapseWs (List.filter keepChar (trimChars (s.map lowerChar))),
        outChar c = true :=
      collapseWsAux_all (fun c => outChar c = true) (by decide) _ false hpre
    have hhy : ∀ c ∈ collapseHy (collapseWs (List.filter keepChar (trimChars (s.map lowerChar)))),
        outChar c = true :=
      collapseHyAux_all (fun c => outChar c = true) (by decide) _ false (fun c hc _ => hws c hc)
    have hch := (collapseHyAux_chain
      (collapseWs (List.filter keepChar (trimChars (s.map lowerChar)))) false).1
    exact stripEndHy_norm _ hhy hch

/-- Pointwise-identical maps are the identity. -/
theorem map_self_of (f : Char → Char) (l : List Char) (h : ∀ c ∈ l, f c = c) : l.map f = l := by
  induction l with
  | nil => rfl
  | cons a t ih =>
    rw [List.map_cons, h a (List.mem_cons_self a t),
      ih (fun c hc => h c (List.mem_cons_of_mem a hc))]

/-- `dropWhile` does nothing when no element satisfies the test. -/
theorem dropWhile_id_of (p : Char → Bool) (l : List Char) (h : ∀ c ∈ l, p c = false) :
    l.dropWhile p = l := by
  cases l with
  | nil => rfl
  | cons a t =>
    rw [List.dropWhile_cons, h a (List.mem_cons_self a t)]
    simp

/-- Slug-alphabet characters are untouched by lower casing. -/
theorem lowerChar_id_of_out (c : Char) (h : outChar c = true) : lowerChar c = c := by
  unfold lowerChar
  rw [if_neg (by
    unfold outChar at h
    simp only [Bool.or_eq_true, Bool.and_eq_true, decide_eq_true_eq] at h ⊢
    omega)]

/-- Slug-alphabet characters are not whitespace. -/
theorem not_space_of_out (c : Char) (h : outChar c = true) : isSpace c = false := by
  rw [Bool.eq_false_iff]
  unfold outChar at h
  unfold isSpace
  simp only [ne_eq, Bool.or_eq_true, Bool.and_eq_true, decide_eq_true_eq] at h ⊢
  omega

/-- Slug-alphabet characters survive the strip. -/
theorem keep_of_out (c : Char) (h : outChar c = true) : keepChar c = true := by
  unfold outChar at h
  unfold keepChar isWordChar isSpace isHyphen
  simp only [Bool.or_eq_true, Bool.and_eq_true, decide_eq_true_eq] at h ⊢
  omega

/-- The whitespace collapse does nothing on whitespace-free input. -/
theorem collapseWsAux_id (l : List Char) (h : ∀ c ∈ l, isSpace c = false) :
    ∀ b, collapseWsAux b l = l := by
  induction l with
  | nil =>
    intro b
    rfl
  | cons a t ih =>
    intro b
    rw [collapseWsAux, if_neg (by simp [h a (List.mem_cons_self a t)])]
    rw [ih (fun c hc => h c (List.mem_cons_of_mem a hc)) false]

/-- The hyphen collapse does nothing on a run-free list. -/
theorem collapseHyAux_id : ∀ l : List Char, HyChain l →
    collapseHyAux false l = l ∧ (l.head? ≠ some '-' → collapseHyAux true l = l) := by
  intro l
  induction l with
  | nil => exact fun _ => ⟨rfl, fun _ => rfl⟩
  | cons d rest ih =>
    intro hch
    unfold HyChain at hch
    rw [List.chain'_cons'] at hch
    obtain ⟨hrel, hch2⟩ := hch
    have ih2 := ih hch2
    by_cases hd : isHyphen d = true
    · have hd2 : d = '-' := (isHyphen_iff d).mp hd
      constructor
      · rw [collapseHyAux, if_pos hd, if_neg (by simp)]
        have hht : rest.head? ≠ some '-' := by
          intro hcon
          exact hrel '-' (Option.mem_def.mpr hcon) ⟨hd2, rfl⟩
        rw [ih2.2 hht, hd2]
      · intro hh
        exact absurd (by rw [List.head?_cons, hd2]) hh
    · constructor
      · rw [collapseHyAux, if_neg hd, ih2.1]
      · intro _
        rw [collapseHyAux, if_neg hd, ih2.1]

/-- The trim does nothing on whitespace-free input. -/
theorem trimChars_id (l : List Char) (h : ∀ c ∈ l, isSpace c = false) : trimChars l = l := by
  unfold trimChars
  rw [dropWhile_id_of _ _ h]
  rw [dropWhile_id_of _ _ (fun c hc => h c (List.mem_reverse.mp hc))]
  exact List.reverse_reverse l

/-- `dropLeadHy` does nothing when the head is not a hyphen. -/
theorem dropLeadHy_id (l : List Char) (h : l.head? ≠ some '-') : dropLeadHy l = l := by
  cases l with
  | nil => rfl
  | cons c t =>
    simp only [dropLeadHy]
    rw [if_neg (fun he => h (by rw [List.head?_cons, he]))]

/-- The edge strip does nothing without edge hyphens. -/
theorem stripEndHy_id (l : List Char) (hh : l.head? ≠ some '-') (hl : l.getLast? ≠ some '-') :
    stripEndHy l = l := by
  unfold stripEndHy dropTrailHy
  rw [dropLeadHy_id l hh]
  rw [dropLeadHy_id l.reverse (by rw [List.head?_reverse]; exact hl)]
  exact List.reverse_reverse l

/-- The normalizer is the identity on fully normalized input. -/
theorem generateSlug_of_norm (l : List Char) (h : NormSlug l) : generateSlug l = l := by
  obtain ⟨hall, hch, hh, hl⟩ := h
  by_cases hnil : l = []
  · rw [hnil]
    rfl
  · unfold generateSlug
    rw [if_neg hnil]
    rw [map_self_of lowerChar l (fun c hc => lowerChar_id_of_out c (hall c hc))]
    rw [trimChars_id l (fun c hc => not_space_of_out c (hall c hc))]
    rw [List.filter_eq_self.mpr (fun c hc => keep_of_out c (hall c hc))]
    rw [show collapseWs l = l from
      collapseWsAux_id l (fun c hc => not_space_of_out c (hall c hc)) false]
    rw [show collapseHy l = l from (collapseHyAux_id l hch).1]
    exact stripEndHy_id l hh hl

/-- `natDecCore` computes the base-ten digit characters (most significant
first) once the fuel covers the argument. -/
theorem natDecCore_eq (fuel n : Nat) (h : n ≤ fuel) :
    natDecCore fuel n = ((Nat.digits 10 n).map Nat.digitChar).reverse := by
  induction fuel generalizing n with
  | zero =>
    have hn : n = 0 := Nat.le_zero.mp h
    subst hn
    simp [natDecCore]
  | succ f ih =>
    cases n with
    | zero => simp [natDecCore]
    | succ m =>
      rw [natDecCore, Nat.digits_def' (by norm_num : (1 : Nat) < 10) (Nat.succ_pos m),
        List.map_cons, List.reverse_cons]
      have hdiv : (m + 1) / 10 ≤ f := by
        have := Nat.div_lt_self (Nat.succ_pos m) (by norm_num : 1 < 10)
        omega
      rw [ih ((m + 1) / 10) hdiv]

/-- `Nat.digitChar` is injective below ten. -/
theorem digitChar_inj_lt10 : ∀ d < 10, ∀ e < 10, Nat.digitChar d = Nat.digitChar e → d = e := by
  decide

/-- Mapping `Nat.digitChar` over digit lists is injective. -/
theorem map_digitChar_inj (l1 l2 : List Nat) (h1 : ∀ d ∈ l1, d < 10) (h2 : ∀ d ∈ l2, d < 10)
    (h : l1.map Nat.digitChar = l2.map Nat.digitChar) : l1 = l2 := by
  induction l1 generalizing l2 with
  | nil =>
    cases l2 with
    | nil => rfl
    | cons b t => simp at h
  | cons a t ih =>
    cases l2 with
    | nil => simp at h
    | cons b t2 =>
      simp only [List.map_cons, List.cons.injEq] at h
      have hd : a = b := digitChar_inj_lt10 a (h1 a (by simp)) b (h2 b (by simp)) h.1
      rw [hd, ih t2 (fun d hd2 => h1 d (by simp [hd2])) (fun d hd2 => h2 d (by simp [hd2])) h.2]

/-- The decimal rendering of the counter is injective. -/
theorem natDec_inj (i j : Nat) (h : natDec i = natDec j) : i = j := by
  by_cases hi : i = 0 <;> by_cases hj : j = 0
  · rw [hi, hj]
  · exfalso
    rw [natDec, if_pos hi, natDec, if_neg hj, natDecCore_eq j j le_rfl] at h
    have h2 : (Nat.digits 10 j).map Nat.digitChar = ['0'] := by
      have h3 := congrArg List.reverse h
      simpa using h3.symm
    have h3 : Nat.digits 10 j = [0] := by
      apply map_digitChar_inj _ _ (fun d hd => Nat.digits_lt_base (by norm_num) hd) (by simp)
      simpa using h2
    have h4 := congrArg (Nat.ofDigits 10) h3
    rw [Nat.ofDigits_digits] at h4
    simp [Nat.ofDigits] at h4
    exact hj h4
  · exfalso
    rw [natDec, if_neg hi, natDecCore_eq i i le_rfl, natDec, if_pos hj] at h
    have h2 : (Nat.digits 10 i).map Nat.digitChar = ['0'] := by
      have h3 := congrArg List.reverse h
      simpa using h3
    have h3 : Nat.digits 10 i = [0] := by
      apply map_digitChar_inj _ _ (fun d hd => Nat.digits_lt_base (by norm_num) hd) (by simp)
      simpa using h2
    have h4 := congrArg (Nat.ofDigits 10) h3
    rw [Nat.ofDigits_digits] at h4
    simp [Nat.ofDigits] at h4
    exact hi h4
  · rw [natDec, if_neg hi, natDec, if_neg hj, natDecCore_eq i i le_rfl,
      natDecCore_eq j j le_rfl] at h
    have h2 : (Nat.digits 10 i).map Nat.digitChar = (Nat.digits 10 j).map Nat.digitChar := by
      have h3 := congrArg List.reverse h
      simpa using h3
    have h3 := map_digitChar_inj _ _ (fun d hd => Nat.digits_lt_base (by norm_num) hd)
      (fun d hd => Nat.digits_lt_base (by norm_num) hd) h2
    exact Nat.digits.injective 10 h3

/-- Successive candidates base, base-1, base-2, ... are pairwise distinct. -/
theorem candidate_inj (base : List Char) (i j : Nat) (h : candidate base i = candidate base j) :
    i = j := by
  unfold candidate at h
  by_cases hi : i = 0 <;> by_cases hj : j = 0
  · omega
  · exfalso
    rw [if_pos hi, if_neg hj] at h
    have hlen := congrArg List.length h
    simp [List.length_append] at hlen
  · exfalso
    rw [if_pos hj, if_neg hi] at h
    have hlen := congrArg List.length h
    simp [List.length_append] at hlen
  · rw [if_neg hi, if_neg hj] at h
    have h2 := List.append_cancel_left h
    simp only [List.cons.injEq, true_and] at h2
    exact natDec_inj i j h2

/-- A colliding candidate is one of the stored slugs. -/
theorem slugTaken_mem_slugs (coll : List Artist) (s : List Char) (ex : Option (List Char))
    (h : slugTaken coll s ex = true) : s ∈ coll.map Artist.slug := by
  unfold slugTaken at h
  rw [List.any_eq_true] at h
  obtain ⟨a, ha, hp⟩ := h
  simp only [Bool.and_eq_true, decide_eq_true_eq] at hp
  exact List.mem_map.mpr ⟨a, ha, hp.1⟩

/-- Pigeonhole: among the first `coll.length + 1` pairwise-distinct
candidates at least one is collision-free. -/
theorem exists_free_candidate (coll : List Artist) (base : List Char) (ex : Option (List Char)) :
    ∃ j, j ≤ coll.length ∧ slugTaken coll (candidate base j) ex = false := by
  by_contra hc
  push_neg at hc
  have hall : ∀ j ∈ List.range (coll.length + 1), candidate base j ∈ coll.map Artist.slug := by
    intro j hj
    rw [List.mem_range] at hj
    have ht : slugTaken coll (candidate base j) ex = true := by
      have h0 := hc j (by omega)
      simpa using h0
    exact slugTaken_mem_slugs _ _ _ ht
  have hsub : ((List.range (coll.length + 1)).map (candidate base)) ⊆ coll.map Artist.slug := by
    intro s hs
    obtain ⟨j, hj, rfl⟩ := List.mem_map.mp hs
    exact hall j hj
  have hnd : ((List.range (coll.length + 1)).map (candidate base)).Nodup :=
    List.Nodup.map (fun i j h => candidate_inj base i j h) (List.nodup_range _)
  have hle := (List.subperm_of_subset hnd hsub).length_le
  simp [List.length_map, List.length_range] at hle

/-- The loop succeeds once some candidate within reach of the fuel is free. -/
theorem ensureUniqueSlugAux_succeeds (coll : List Artist) (base : List Char)
    (ex : Option (List Char)) (fuel k : Nat)
    (h : ∃ j, k ≤ j ∧ j < k + fuel ∧ slugTaken coll (candidate base j) ex = false) :
    ∃ s, ensureUniqueSlugAux coll base ex fuel k = some s ∧ slugTaken coll s ex = false := by
  induction fuel generalizing k with
  | zero =>
    obtain ⟨j, h1, h2, _⟩ := h
    omega
  | succ f ih =>
    rw [ensureUniqueSlugAux]
    by_cases ht : slugTaken coll (candidate base k) ex = true
    · rw [if_pos ht]
      apply ih
      obtain ⟨j, h1, h2, h3⟩ := h
      refine ⟨j, ?_, by omega, h3⟩
      rcases Nat.eq_or_lt_of_le h1 with rfl | hlt
      · rw [h3] at ht
        simp at ht
      · omega
    · rw [if_neg ht]
      exact ⟨candidate base k, rfl, Bool.eq_false_iff.mpr ht⟩

/-! ## Claims -/

/-- Wrapper of `ensureUniqueSlugAux_not_taken` at the fuel `ensureUniqueSlug`
actually runs with. -/
theorem ensureUniqueSlug_not_taken (coll : List Artist) (base : List Char)
    (ex : Option (List Char)) (s : List Char) (h : ensureUniqueSlug coll base ex = some s) :
    slugTaken coll s ex = false :=
  ensureUniqueSlugAux_not_taken coll base ex (coll.length + 1) 0 s h

/-- Upserting a row whose slug collides with no other id preserves both
primary-key uniqueness and slug uniqueness. -/
theorem upsert_preserves (coll : List Artist) (a : Artist) (s : List Char)
    (hid : IdsNodup coll) (hsu : SlugUnique coll)
    (hfree : s ≠ [] → ∀ e ∈ coll, e.slug = s → e.id = a.id) :
    IdsNodup (upsertArtist coll { a with slug := s }) ∧
    SlugUnique (upsertArtist coll { a with slug := s }) := by
  unfold upsertArtist
  by_cases hex : coll.any (fun e => decide (e.id = Artist.id { a with slug := s })) = true
  · rw [if_pos hex]
    constructor
    · unfold IdsNodup
      rw [List.pairwise_map]
      refine hid.imp ?_
      intro e1 e2 hne
      by_cases h1 : e1.id = Artist.id { a with slug := s } <;>
        by_cases h2 : e2.id = Artist.id { a with slug := s }
      · rw [if_pos h1, if_pos h2]
        rw [h1, h2] at hne
        exact hne
      · rw [if_pos h1, if_neg h2, ← h1]
        exact hne
      · rw [if_neg h1, if_pos h2, ← h2]
        exact hne
      · rw [if_neg h1, if_neg h2]
        exact hne
    · intro u hu v hv hne hslug
      obtain ⟨e1, he1, rfl⟩ := List.mem_map.mp hu
      obtain ⟨e2, he2, rfl⟩ := List.mem_map.mp hv
      by_cases h1 : e1.id = Artist.id { a with slug := s } <;>
        by_cases h2 : e2.id = Artist.id { a with slug := s }
      · rw [if_pos h1, if_pos h2]
      · rw [if_pos h1] at hne hslug ⊢
        rw [if_neg h2] at hslug ⊢
        have hs : s ≠ [] := hne
        have he2s : e2.slug = s := hslug.symm
        exact (hfree hs e2 he2 he2s).symm
      · rw [if_neg h1] at hne hslug ⊢
        rw [if_pos h2] at hslug ⊢
        have hs : s ≠ [] := by
          intro h0
          exact hne (hslug.trans h0)
        exact hfree hs e1 he1 hslug
      · rw [if_neg h1] at hne hslug ⊢
        rw [if_neg h2] at hslug ⊢
        exact hsu e1 he1 e2 he2 hne hslug
  · rw [if_neg hex]
    have hnotmem : ∀ e ∈ coll, e.id ≠ Artist.id { a with slug := s } := by
      intro e he heq
      apply hex
      rw [List.any_eq_true]
      exact ⟨e, he, by simpa using heq⟩
    constructor
    · unfold IdsNodup
      rw [List.pairwise_append]
      refine ⟨hid, by simp, ?_⟩
      intro e he b hb
      rw [List.mem_singleton] at hb
      subst hb
      exact hnotmem e he
    · intro u hu v hv hne hslug
      rw [List.mem_append, List.mem_singleton] at hu hv
      rcases hu with hu | hu <;> rcases hv with hv | hv
      · exact hsu u hu v hv hne hslug
      · subst hv
        have hslug2 : u.slug = s := hslug
        have hs : s ≠ [] := hslug2 ▸ hne
        exact hfree hs u hu hslug2
      · subst hu
        have hs : s ≠ [] := hne
        have hslug2 : s = v.slug := hslug
        exact (hfree hs v hv hslug2.symm).symm
      · subst hu
        subst hv
        rfl

/-- A single `saveArtist` write preserves the collection invariants. -/
theorem saveArtist_invariant (coll coll2 : List Artist) (a : Artist)
    (hid : IdsNodup coll) (hsu : SlugUnique coll)
    (h : saveArtist coll a = some coll2) :
    IdsNodup coll2 ∧ SlugUnique coll2 := by
  simp only [saveArtist] at h
  rcases hre : (if (if a.slug = [] then generateSlug a.name else a.slug) = []
      then some (if a.slug = [] then generateSlug a.name else a.slug)
      else ensureUniqueSlug coll (if a.slug = [] then generateSlug a.name else a.slug)
        (some a.id)) with _ | s
  · rw [hre] at h
    exact Option.noConfusion h
  · rw [hre] at h
    have hc2 : upsertArtist coll { a with slug := s } = coll2 := Option.some.inj h
    subst hc2
    apply upsert_preserves coll a s hid hsu
    intro hs e he hslug
    by_cases hb : (if a.slug = [] then generateSlug a.name else a.slug) = []
    · rw [if_pos hb] at hre
      have : (if a.slug = [] then generateSlug a.name else a.slug) = s := Option.some.inj hre
      exact absurd (this ▸ hb) hs
    · rw [if_neg hb] at hre
      have hfree := ensureUniqueSlug_not_taken coll _ (some a.id) s hre
      exact (slugTaken_false_iff coll s a.id).mp hfree e he hslug

/-- Every sequence of `saveArtist` writes preserves the invariants. -/
theorem saveAll_invariant (writes : List Artist) (coll coll2 : List Artist)
    (hid : IdsNodup coll) (hsu : SlugUnique coll)
    (h : saveAll coll writes = some coll2) :
    IdsNodup coll2 ∧ SlugUnique coll2 := by
  induction writes generalizing coll with
  | nil =>
    have hc : coll = coll2 := Option.some.inj h
    subst hc
    exact ⟨hid, hsu⟩
  | cons a rest ih =>
    rw [saveAll] at h
    cases hsa : saveArtist coll a with
    | none =>
      rw [hsa] at h
      exact Option.noConfusion h
    | some cmid =>
      rw [hsa] at h
      obtain ⟨hid2, hsu2⟩ := saveArtist_invariant coll cmid a hid hsu hsa
      exact ih cmid hid2 hsu2 h

/-- In an invariant-respecting collection at most one row owns each
non-empty slug. -/
theorem count_le_one (coll : List Artist) (hid : IdsNodup coll) (hsu : SlugUnique coll)
    (x : List Char) (hx : x ≠ []) :
    (coll.filter (fun a => decide (a.slug = x))).length ≤ 1 := by
  rcases hm : coll.filter (fun a => decide (a.slug = x)) with _ | ⟨u, _ | ⟨v, t⟩⟩
  · rw [hm]
    simp
  · rw [hm]
    simp
  · exfalso
    have hpw : (coll.filter (fun a => decide (a.slug = x))).Pairwise (fun a b => a.id ≠ b.id) :=
      hid.filter _
    rw [hm] at hpw
    have huv : u.id ≠ v.id := (List.pairwise_cons.mp hpw).1 v (by simp)
    have humem : u ∈ coll.filter (fun a => decide (a.slug = x)) := by
      rw [hm]
      simp
    have hvmem : v ∈ coll.filter (fun a => decide (a.slug = x)) := by
      rw [hm]
      simp
    have hu : u ∈ coll := List.mem_of_mem_filter humem
    have hv : v ∈ coll := List.mem_of_mem_filter hvmem
    have hus : u.slug = x := by simpa using List.of_mem_filter humem
    have hvs : v.slug = x := by simpa using List.of_mem_filter hvmem
    exact huv (hsu u hu v hv (hus ▸ hx) (hus.trans hvs.symm))

/-- C1: starting from any collection satisfying primary-key and slug
uniqueness (the empty collection in particular), after any sequence of
writes that pass their candidate slug through `ensureUniqueSlug` with the
written entity's id as the exclusion, at most one entity carries any given
non-empty slug. -/
theorem saveAll_slug_unique (writes coll coll2 : List Artist)
    (hid : IdsNodup coll) (hsu : SlugUnique coll)
    (h : saveAll coll writes = some coll2) (x : List Char) (hx : x ≠ []) :
    (coll2.filter (fun a => decide (a.slug = x))).length ≤ 1 := by
  obtain ⟨hid2, hsu2⟩ := saveAll_invariant writes coll coll2 hid hsu h
  exact count_le_one coll2 hid2 hsu2 x hx

/-- C1 witness: two artists both named Echo written in sequence end up
with slugs echo and echo-1, and only one row owns "echo". -/
theorem saveAll_slug_unique_witness :
    (([⟨"1".data, "echo".data, "Echo".data⟩, ⟨"2".data, "echo-1".data, "Echo".data⟩] :
        List Artist).filter (fun a => decide (a.slug = "echo".data))).length ≤ 1 :=
  saveAll_slug_unique [⟨"1".data, [], "Echo".data⟩, ⟨"2".data, [], "Echo".data⟩] []
    [⟨"1".data, "echo".data, "Echo".data⟩, ⟨"2".data, "echo-1".data, "Echo".data⟩]
    (by simp [IdsNodup]) (by simp [SlugUnique]) (by decide) "echo".data (by decide)

/-- C2: the identifier resolver attempts the slug lookup first and returns
the slug-matching entity when one exists; only when no entity has a
matching slug is the identifier retried as a primary id; in particular,
when a slug x and an unrelated primary id x coexist, the slug owner wins. -/
theorem resolveByIdentifier_slug_precedence (coll : List Artist) (x : List Char) :
    ((∃ a ∈ coll, a.slug = x) →
      ∃ b, resolveByIdentifier coll x = some b ∧ b ∈ coll ∧ b.slug = x) ∧
    ((∀ a ∈ coll, a.slug ≠ x) →
      resolveByIdentifier coll x = coll.find? (fun a => decide (a.id = x))) ∧
    (∀ e1 e2, e1 ∈ coll → e2 ∈ coll → e1.slug = x → e2.id = x → e1 ≠ e2 →
      (∀ a ∈ coll, a.slug = x → a = e1) →
      resolveByIdentifier coll x = some e1) := by
  refine ⟨?_, ?_, ?_⟩
  · rintro ⟨a, ha, hs⟩
    have hsome : (coll.find? (fun a => decide (a.slug = x))).isSome := by
      rw [List.find?_isSome]
      exact ⟨a, ha, by simpa using hs⟩
    obtain ⟨b, hb⟩ := Option.isSome_iff_exists.mp hsome
    refine ⟨b, ?_, List.mem_of_find?_eq_some hb, by simpa using List.find?_some hb⟩
    simp [resolveByIdentifier, hb]
  · intro h
    have hn : coll.find? (fun a => decide (a.slug = x)) = none := by
      rw [List.find?_eq_none]
      intro a ha
      simpa using h a ha
    simp [resolveByIdentifier, hn]
  · intro e1 e2 h1 h2 hs hid hne huniq
    have hsome : (coll.find? (fun a => decide (a.slug = x))).isSome := by
      rw [List.find?_isSome]
      exact ⟨e1, h1, by simpa using hs⟩
    obtain ⟨b, hb⟩ := Option.isSome_iff_exists.mp hsome
    have hb1 : b = e1 :=
      huniq b (List.mem_of_find?_eq_some hb) (by simpa using List.find?_some hb)
    simp [resolveByIdentifier, hb, hb1]

/-- C2 witness: slug "x" on entity id1 beats primary id "x" on another
entity. -/
theorem resolveByIdentifier_slug_precedence_witness :
    resolveByIdentifier
      [⟨"id1".data, "x".data, "n1".data⟩, ⟨"x".data, "y".data, "n2".data⟩] "x".data
      = some ⟨"id1".data, "x".data, "n1".data⟩ :=
  (resolveByIdentifier_slug_precedence
      [⟨"id1".data, "x".data, "n1".data⟩, ⟨"x".data, "y".data, "n2".data⟩] "x".data).2.2
    ⟨"id1".data, "x".data, "n1".data⟩ ⟨"x".data, "y".data, "n2".data⟩
    (by decide) (by decide) (by decide) (by decide) (by decide) (by decide)

/-- C4: the delete guard returns Conflict exactly when some release's
foreign key equals the parent id (and the delete is not performed), and
Allow exactly when the count is zero. -/
theorem guardDelete_conflict_iff (artists : List Artist) (releases : List Release) (id : List Char) :
    (guardDelete releases id = GuardResult.Conflict ↔ 0 < childCount releases id) ∧
    (guardDelete releases id = GuardResult.Allow ↔ childCount releases id = 0) ∧
    (0 < childCount releases id →
      deleteArtistRoute artists releases id = (DeleteResp.conflict, artists)) := by
  unfold guardDelete deleteArtistRoute
  by_cases h : childCount releases id > 0
  · rw [if_pos h, if_pos h]
    refine ⟨by simp [h], by simp; omega, fun _ => rfl⟩
  · rw [if_neg h, if_neg h]
    refine ⟨by simp [h], by simp; omega, fun hc => absurd hc h⟩

/-- C4 witness: artist "42" with one dependent release is not deleted. -/
theorem guardDelete_conflict_iff_witness :
    deleteArtistRoute [⟨"42".data, "a".data, "A".data⟩]
      [⟨"r1".data, "s".data, "T".data, "42".data⟩] "42".data
      = (DeleteResp.conflict, [⟨"42".data, "a".data, "A".data⟩]) :=
  (guardDelete_conflict_iff [⟨"42".data, "a".data, "A".data⟩]
      [⟨"r1".data, "s".data, "T".data, "42".data⟩] "42".data).2.2 (by decide)

/-- C5: the resolver loop terminates for every finite collection: the
candidates base, base-1, base-2, ... are pairwise distinct, an unused one
is found within at most `coll.length + 1` iterations (the fuel
`ensureUniqueSlug` runs with), and the returned slug is collision-free
among the non-excluded entities as observed at query time. -/
theorem ensureUniqueSlug_terminates (coll : List Artist) (base : List Char)
    (ex : Option (List Char)) (hbase : base ≠ []) :
    (∀ i j, candidate base i = candidate base j → i = j) ∧
    ∃ s, ensureUniqueSlug coll base ex = some s ∧ slugTaken coll s ex = false := by
  refine ⟨fun i j h => candidate_inj base i j h, ?_⟩
  unfold ensureUniqueSlug
  apply ensureUniqueSlugAux_succeeds
  obtain ⟨j, hj, hfree⟩ := exists_free_candidate coll base ex
  exact ⟨j, Nat.zero_le j, by omega, hfree⟩

/-- C5 witness: with "echo" and "echo-1" already stored, the loop ends and
its answer collides with nothing. -/
theorem ensureUniqueSlug_terminates_witness :
    ∃ s, ensureUniqueSlug
        [⟨"a1".data, "echo".data, "E1".data⟩, ⟨"a2".data, "echo-1".data, "E2".data⟩]
        "echo".data none = some s ∧
      slugTaken [⟨"a1".data, "echo".data, "E1".data⟩, ⟨"a2".data, "echo-1".data, "E2".data⟩]
        s none = false :=
  (ensureUniqueSlug_terminates
    [⟨"a1".data, "echo".data, "E1".data⟩, ⟨"a2".data, "echo-1".data, "E2".data⟩]
    "echo".data none (by decide)).2

example :
    ensureUniqueSlug
      [⟨"a1".data, "echo".data, "E1".data⟩, ⟨"a2".data, "echo-1".data, "E2".data⟩]
      "echo".data none = some "echo-2".data := by decide

/-- C6: when the excluded entity is the only owner of the base slug, the
resolver returns the base unchanged — re-saving an entity with its own
slug appends no suffix. -/
theorem ensureUniqueSlug_self_exclusion (coll : List Artist) (base ex : List Char)
    (h : ∀ a ∈ coll, a.slug = base → a.id = ex) :
    ensureUniqueSlug coll base (some ex) = some base :=
  ensureUniqueSlug_base_free coll base (some ex) ((slugTaken_false_iff coll base ex).mpr h)

/-- C6 witness: the sole owner of "echo" re-saves and keeps "echo". -/
theorem ensureUniqueSlug_self_exclusion_witness :
    ensureUniqueSlug [⟨"a1".data, "echo".data, "Echo".data⟩] "echo".data (some "a1".data)
      = some "echo".data :=
  ensureUniqueSlug_self_exclusion [⟨"a1".data, "echo".data, "Echo".data⟩]
    "echo".data "a1".data (by decide)

/-- C8: an empty base slug is stored unchanged — the resolver is only
invoked under `if (slug)`, so an entity whose source normalizes to the
empty string keeps an empty slug. -/
theorem saveReleaseSlug_empty_base (coll : List Release) (r : Release)
    (h1 : r.slug = []) (h2 : generateSlug r.title = []) :
    saveReleaseSlug coll r = some [] := by
  simp [saveReleaseSlug, generateReleaseSlug, h1, h2]

/-- C8 witness: a release titled "!!!" gets and keeps the empty slug. -/
theorem saveReleaseSlug_empty_base_witness :
    saveReleaseSlug [] ⟨"r1".data, [], "!!!".data, "a1".data⟩ = some [] :=
  saveReleaseSlug_empty_base [] ⟨"r1".data, [], "!!!".data, "a1".data⟩ (by decide) (by decide)

/-- C9 counterexample: the read helper `getReleases` does not propagate a
store failure — it catches the error and substitutes the empty list. -/
theorem store_getReleases_masks_failure :
    Store.getReleases (Except.error "connection lost".data) = Except.ok [] ∧
    (Except.ok ([] : List Release) : Except (List Char) (List Release))
      ≠ Except.error "connection lost".data :=
  ⟨rfl, fun h => Except.noConfusion h⟩

/-- C9 amended: the write and delete helpers rethrow the store error
unchanged, but the read helpers `getReleases` and `getArtists` catch it
and substitute the empty list. -/
theorem store_error_propagation (e : List Char) :
    Store.deleteRelease (Except.error e) = Except.error e ∧
    Store.saveArtist (Except.error e) = Except.error e ∧
    Store.getReleases (Except.error e) = Except.ok [] ∧
    Store.getArtists (Except.error e) = Except.ok [] :=
  ⟨rfl, rfl, rfl, rfl⟩

/-- C10: the relational-backend artist update handler never clears a
non-empty stored slug for regeneration — it compares the request name
against the already-overwritten field — so the row saved after an update
carries the old slug, whatever name the request supplies. -/
theorem updateArtist_slug_never_regenerated (coll : List Artist) (a : Artist) (bodyName : List Char)
    (hslug : a.slug ≠ [])
    (hsole : ∀ b ∈ coll, b.slug = a.slug → b.id = a.id) :
    (updateArtistFields a bodyName).slug = a.slug ∧
    saveArtist coll (updateArtistFields a bodyName) =
      some (upsertArtist coll { updateArtistFields a bodyName with slug := a.slug }) := by
  have hupd : (updateArtistFields a bodyName).slug = a.slug := by
    unfold updateArtistFields
    by_cases hb : bodyName = []
    · simp [hb]
    · simp [hb]
  have hid2 : (updateArtistFields a bodyName).id = a.id := by
    unfold updateArtistFields
    by_cases hb : bodyName = []
    · simp [hb]
    · simp [hb]
  refine ⟨hupd, ?_⟩
  have hres : ensureUniqueSlug coll a.slug (some a.id) = some a.slug :=
    ensureUniqueSlug_base_free coll a.slug (some a.id) ((slugTaken_false_iff coll a.slug a.id).mpr hsole)
  simp only [saveArtist, hupd, hid2, if_neg hslug, hres]

/-- C10 witness: renaming the sole owner of "echo" leaves its slug "echo". -/
theorem updateArtist_slug_never_regenerated_witness :
    (updateArtistFields ⟨"1".data, "echo".data, "Old".data⟩ "New".data).slug = "echo".data ∧
    saveArtist [⟨"1".data, "echo".data, "Old".data⟩]
        (updateArtistFields ⟨"1".data, "echo".data, "Old".data⟩ "New".data) =
      some (upsertArtist [⟨"1".data, "echo".data, "Old".data⟩]
        { updateArtistFields ⟨"1".data, "echo".data, "Old".data⟩ "New".data with slug := "echo".data }) :=
  updateArtist_slug_never_regenerated [⟨"1".data, "echo".data, "Old".data⟩]
    ⟨"1".data, "echo".data, "Old".data⟩ "New".data (by decide) (by decide)

/-- C7: the normalizer is idempotent — applying `generateSlug` to its own
output returns the output unchanged. -/
theorem generateSlug_idempotent (s : List Char) :
    generateSlug (generateSlug s) = generateSlug s :=
  generateSlug_of_norm (generateSlug s) (generateSlug_norm s)

/-- C3 counterexample: the strip step keeps the underscore (it is in the
JavaScript w-class), so "a_b" normalizes to itself although the underscore
is neither an ASCII lowercase letter, a digit, nor a hyphen — refuting the
claimed output alphabet. -/
theorem generateSlug_underscore_counterexample :
    generateSlug "a_b".data = "a_b".data ∧ '_' ∈ generateSlug "a_b".data ∧
    specSlugChar '_' = false := by decide

/-- C3 amended: the normalizer lower-cases, trims, strips every character
outside the w-class/whitespace/hyphen set (so underscores survive),
collapses whitespace runs and hyphen runs to single hyphens and strips
edge hyphens; its output contains only ASCII lowercase letters, digits,
underscores, and hyphens. -/
theorem generateSlug_output_alphabet (s : List Char) (c : Char)
    (h : c ∈ generateSlug s) : outChar c = true :=
  (generateSlug_norm s).1 c h

/-- C3 witness: the underscore of the slug of "a_b" is in the amended
output alphabet. -/
theorem generateSlug_output_alphabet_witness : outChar '_' = true :=
  generateSlug_output_alphabet "a_b".data '_' (by decide)

end Submerge
